import Mathlib

/-!
Verification of the pattern-expansion engine of `fpr` (`src/main.rs`),
the recursive parser/expander `expand_group_pattern` with its inner
functions `expand_rec` and `parse_group`.

Embedding notes:
* A pattern is a `String`; the scan works over `List Char`, matching the
  Rust `Vec<char>` obtained by `span.chars().collect()`.
* `parse_group`'s segment-splitting loop (the `while` loop over `i`,
  `depth`, `start`) is `parseGroupSegsAux` / `parseGroupSegs`: it returns
  the list of raw segments (`chars[start..i]` slices) and the index just
  past the `)` that closed the group (or the index where the scan stopped).
* The mutual recursion between `expand_rec` and the per-segment expansion
  inside `parse_group` is modelled by the single step function `stepF`,
  structural in an explicit fuel argument; `none` marks fuel exhaustion.
  `stepF_ok` below proves that the fuel used by `expand_group_pattern`
  (`3 * pattern.length + 2`) always suffices, so the `Option` layer is
  inessential: the function is total.
* Rust's `str::trim` trims Unicode `White_Space` characters; `rustIsWhitespace`
  lists that set.  `HashSet<String>` is modelled as a `List String` used
  only through membership, which is all the Rust code uses it for.
-/

namespace Fpr

/-- Rust `char::is_whitespace`: the Unicode `White_Space` code points. -/
def rustIsWhitespace (c : Char) : Bool :=
  ([9, 10, 11, 12, 13, 32, 133, 160, 5760,
    8192, 8193, 8194, 8195, 8196, 8197, 8198, 8199, 8200, 8201, 8202,
    8232, 8233, 8239, 8287, 12288] : List Nat).contains c.toNat

/-- Rust `str::trim` on a character list: drop leading and trailing
whitespace. -/
def trimChars (s : List Char) : List Char :=
  ((s.dropWhile rustIsWhitespace).reverse.dropWhile rustIsWhitespace).reverse

/-- The exclusion-marker check of `parse_group`: if the trimmed segment
starts with `-` or `^`, strip that one leading character and report the
segment as exclusion-marked (`trimmed.starts_with('-') || trimmed.starts_with('^')`
followed by `&trimmed[1..]`). -/
def stripMarker (s : List Char) : Bool × List Char :=
  match s with
  | [] => (false, [])
  | c :: rest => if c = '-' ∨ c = '^' then (true, rest) else (false, s)

/-- The slice `chars[start..stop]`. -/
def sliceChars (chars : List Char) (start stop : Nat) : List Char :=
  (chars.drop start).take (stop - start)

/-- The segment-splitting `while` loop of `parse_group`.  `rest` is the
still-unscanned part of `chars` (i.e. `chars.drop i`), carried as the
structural recursion argument; `i`, `depth`, `start` and the accumulated
`segs` are exactly the Rust loop state.  Returns the collected segments
and the final value of `i` (just past the closing `)`, or the point where
the scan ran off the end). -/
def parseGroupSegsAux (chars : List Char) :
    List Char → Nat → Nat → Nat → List (List Char) → List (List Char) × Nat
  | [], i, _, _, segs => (segs, i)
  | c :: rest, i, depth, start, segs =>
    if c = '(' then
      parseGroupSegsAux chars rest (i + 1) (depth + 1) start segs
    else if c = ')' then
      if depth = 0 then (segs ++ [sliceChars chars start i], i + 1)
      else parseGroupSegsAux chars rest (i + 1) (depth - 1) start segs
    else if c = ',' then
      if depth = 0 then
        parseGroupSegsAux chars rest (i + 1) depth (i + 1) (segs ++ [sliceChars chars start i])
      else parseGroupSegsAux chars rest (i + 1) depth start segs
    else parseGroupSegsAux chars rest (i + 1) depth start segs

/-- `parse_group`'s scanning phase, entered just inside a `(` at index `i`. -/
def parseGroupSegs (chars : List Char) (i : Nat) : List (List Char) × Nat :=
  parseGroupSegsAux chars (chars.drop i) i 0 i []

/-- The error message of the `anyhow::bail!` in `parse_group`. -/
def unmatchedMsg : String := "Unmatched ( in pattern"

/-- The cartesian-product combination performed by `expand_rec` on `(`:
for every `(p, pe)` in the accumulator and every `(q, qe)` among the
group's alternatives, produce `(p ++ q, pe || qe)`. -/
def cartProd (acc items : List (String × Bool)) : List (String × Bool) :=
  (acc.map (fun p => items.map (fun q => (p.1 ++ q.1, p.2 || q.2)))).flatten

/-- A pending call of the mutually recursive pair: `span` is the state of
`expand_rec`'s scan (the span's characters, current index, accumulator),
`segs` is the per-segment expansion loop at the end of `parse_group`
(trim, marker check, recursive `expand_rec`, OR the flags, concatenate). -/
inductive Call where
  | span (chars : List Char) (i : Nat) (acc : List (String × Bool))
  | segs (xs : List (List Char))

/-- One fuelled interpreter for the mutually recursive pair
`expand_rec` / `parse_group`.  `none` means the fuel ran out (shown
impossible for the fuel used by `expand_group_pattern`); `some (Except.error e)`
is an `anyhow` error; `some (Except.ok out)` a normal result. -/
def stepF : Nat → Call → Option (Except String (List (String × Bool)))
  | 0, _ => none
  | fuel + 1, Call.span chars i acc =>
    if h : i < chars.length then
      if chars.get ⟨i, h⟩ = '(' then
        let pr := parseGroupSegs chars (i + 1)
        if chars.length < pr.2 then some (Except.error unmatchedMsg)
        else
          match stepF fuel (Call.segs pr.1) with
          | none => none
          | some (Except.error e) => some (Except.error e)
          | some (Except.ok items) =>
            stepF fuel (Call.span chars pr.2 (cartProd acc items))
      else
        stepF fuel (Call.span chars (i + 1)
          (acc.map (fun p => (p.1.push (chars.get ⟨i, h⟩), p.2))))
    else some (Except.ok acc)
  | _ + 1, Call.segs [] => some (Except.ok [])
  | fuel + 1, Call.segs (seg :: rest) =>
    let trimmed := trimChars seg
    if trimmed.isEmpty then stepF fuel (Call.segs rest)
    else
      match stepF fuel (Call.span (stripMarker trimmed).2 0 [("", false)]) with
      | none => none
      | some (Except.error e) => some (Except.error e)
      | some (Except.ok subItems) =>
        match stepF fuel (Call.segs rest) with
        | none => none
        | some (Except.error e) => some (Except.error e)
        | some (Except.ok restItems) =>
          some (Except.ok
            (subItems.map (fun p => (p.1, (stripMarker trimmed).1 || p.2)) ++ restItems))

/-- `expand_rec` on a span, started with the accumulator `[("", false)]`. -/
def expand_rec (fuel : Nat) (span : List Char) :
    Option (Except String (List (String × Bool))) :=
  stepF fuel (Call.span span 0 [("", false)])

/-- `parse_group`: scan the segments, perform the (dead) unmatched-paren
check `i > chars.len()`, then expand every segment. -/
def parse_group (fuel : Nat) (chars : List Char) (i : Nat) :
    Option (Except String (List (String × Bool) × Nat)) :=
  let pr := parseGroupSegs chars i
  if chars.length < pr.2 then some (Except.error unmatchedMsg)
  else
    match stepF fuel (Call.segs pr.1) with
    | none => none
    | some (Except.error e) => some (Except.error e)
    | some (Except.ok out) => some (Except.ok (out, pr.2))

/-- Fuel that `stepF_ok` proves sufficient for a whole pattern. -/
def egpFuel (pattern : String) : Nat := 3 * pattern.length + 2

/-- The full list of `(string, excluded)` expansion pairs of a pattern:
`expand_rec(pattern)` in the driver. -/
def expandPairs (pattern : String) : Option (Except String (List (String × Bool))) :=
  expand_rec (egpFuel pattern) pattern.toList

/-- The `includes` sequence of the driver: first components of the
non-excluded pairs, in production order. -/
def includesOf (pairs : List (String × Bool)) : List String :=
  (pairs.filter (fun p => !p.2)).map Prod.fst

/-- The `excludes` collection of the driver: first components of the
excluded pairs (the Rust `HashSet` is used only through membership). -/
def excludesOf (pairs : List (String × Bool)) : List String :=
  (pairs.filter (fun p => p.2)).map Prod.fst

/-- `expand_group_pattern`: run `expand_rec` on the whole pattern,
partition the pairs into `includes` / `excludes`, and retain the includes
that are not members of `excludes`. -/
def expand_group_pattern (pattern : String) : Option (Except String (List String)) :=
  match expandPairs pattern with
  | none => none
  | some (Except.error e) => some (Except.error e)
  | some (Except.ok pairs) =>
    some (Except.ok ((includesOf pairs).filter
      (fun s => !(decide (s ∈ excludesOf pairs)))))

/-- Weight of a segment list: each segment costs its length plus one. -/
def segsWeight : List (List Char) → Nat
  | [] => 0
  | s :: r => s.length + 1 + segsWeight r

/-- Fuel needed for a pending call, used to prove `stepF` total. -/
def callWeight : Call → Nat
  | Call.span chars i _ => 3 * (chars.length - i) + 1
  | Call.segs xs => 3 * segsWeight xs + 1


theorem segsWeight_append (a b : List (List Char)) :
    segsWeight (a ++ b) = segsWeight a + segsWeight b := by
  induction a with
  | nil => simp [segsWeight]
  | cons x xs ih => simp [segsWeight, ih]; omega

theorem sliceChars_length_le (chars : List Char) (st sp : Nat) :
    (sliceChars chars st sp).length ≤ sp - st := by
  simp [sliceChars]

theorem parseGroupSegsAux_idx_le (chars : List Char) :
    ∀ (rest : List Char) (i d st : Nat) (segs : List (List Char)),
      i ≤ (parseGroupSegsAux chars rest i d st segs).2 := by
  intro rest
  induction rest with
  | nil => intro i d st segs; simp [parseGroupSegsAux]
  | cons c rest ih =>
    intro i d st segs
    simp only [parseGroupSegsAux]
    split_ifs <;>
      first
      | simp
      | exact Nat.le_trans (Nat.le_succ i) (ih _ _ _ _)

theorem parseGroupSegsAux_idx_le_len (chars : List Char) :
    ∀ (rest : List Char) (i d st : Nat) (segs : List (List Char)),
      i + rest.length ≤ chars.length →
      (parseGroupSegsAux chars rest i d st segs).2 ≤ chars.length := by
  intro rest
  induction rest with
  | nil =>
    intro i d st segs h
    simp only [parseGroupSegsAux]
    simp at h
    omega
  | cons c rest ih =>
    intro i d st segs h
    simp only [List.length_cons] at h
    simp only [parseGroupSegsAux]
    split_ifs <;>
      first
      | (exact ih _ _ _ _ (by omega))
      | (simp; omega)

theorem parseGroupSegsAux_weight_le (chars : List Char) :
    ∀ (rest : List Char) (i d st : Nat) (segs : List (List Char)), st ≤ i →
      segsWeight (parseGroupSegsAux chars rest i d st segs).1 ≤
        segsWeight segs + (i - st) + rest.length := by
  intro rest
  induction rest with
  | nil => intro i d st segs hst; simp [parseGroupSegsAux]
  | cons c rest ih =>
    intro i d st segs hst
    simp only [parseGroupSegsAux, List.length_cons]
    split_ifs
    · have := ih (i + 1) (d + 1) st segs (by omega)
      omega
    · have hs := sliceChars_length_le chars st i
      simp only [segsWeight_append, segsWeight]
      omega
    · have := ih (i + 1) (d - 1) st segs (by omega)
      omega
    · have := ih (i + 1) d (i + 1) (segs ++ [sliceChars chars st i]) (Nat.le_refl _)
      have hs := sliceChars_length_le chars st i
      simp only [segsWeight_append, segsWeight] at this
      omega
    · have := ih (i + 1) d st segs (by omega)
      omega
    · have := ih (i + 1) d st segs (by omega)
      omega

theorem parseGroupSegs_idx_le (chars : List Char) (i : Nat) :
    i ≤ (parseGroupSegs chars i).2 :=
  parseGroupSegsAux_idx_le chars _ i 0 i []

theorem parseGroupSegs_idx_le_len (chars : List Char) (i : Nat) (h : i ≤ chars.length) :
    (parseGroupSegs chars i).2 ≤ chars.length := by
  apply parseGroupSegsAux_idx_le_len
  simp
  omega

theorem parseGroupSegs_weight_le (chars : List Char) (i : Nat) :
    segsWeight (parseGroupSegs chars i).1 ≤ chars.length - i := by
  have h := parseGroupSegsAux_weight_le chars (chars.drop i) i 0 i [] (Nat.le_refl i)
  simp [segsWeight] at h
  simp [parseGroupSegs]
  omega

theorem trimChars_length_le (s : List Char) : (trimChars s).length ≤ s.length := by
  have h1 := (List.dropWhile_sublist (l := s) rustIsWhitespace).length_le
  have h2 := (List.dropWhile_sublist
    (l := (s.dropWhile rustIsWhitespace).reverse) rustIsWhitespace).length_le
  simp only [trimChars, List.length_reverse]
  simp only [List.length_reverse] at h2
  omega

theorem stripMarker_length_le (s : List Char) : (stripMarker s).2.length ≤ s.length := by
  cases s with
  | nil => simp [stripMarker]
  | cons c rest =>
    simp only [stripMarker]
    split_ifs <;> simp


theorem stepF_ok :
    ∀ (fuel : Nat) (c : Call), callWeight c ≤ fuel →
      ∃ out, stepF fuel c = some (Except.ok out) := by
  intro fuel
  induction fuel with
  | zero =>
    intro c hc
    cases c <;> simp [callWeight] at hc
  | succ n ih =>
    intro c hc
    cases c with
    | span chars i acc =>
      by_cases h : i < chars.length
      · by_cases hpar : chars.get ⟨i, h⟩ = '('
        · have hW := parseGroupSegs_weight_le chars (i + 1)
          have hle := parseGroupSegs_idx_le_len chars (i + 1) (by omega)
          have hge := parseGroupSegs_idx_le chars (i + 1)
          simp only [callWeight] at hc
          obtain ⟨items, hitems⟩ :=
            ih (Call.segs (parseGroupSegs chars (i + 1)).1) (by simp [callWeight]; omega)
          obtain ⟨out, hout⟩ :=
            ih (Call.span chars (parseGroupSegs chars (i + 1)).2 (cartProd acc items))
              (by simp [callWeight]; omega)
          refine ⟨out, ?_⟩
          simp only [stepF]
          rw [dif_pos h, if_pos hpar,
            if_neg (by omega : ¬ chars.length < (parseGroupSegs chars (i + 1)).2), hitems]
          exact hout
        · simp only [callWeight] at hc
          obtain ⟨out, hout⟩ :=
            ih (Call.span chars (i + 1)
              (acc.map (fun p => (p.1.push (chars.get ⟨i, h⟩), p.2))))
              (by simp [callWeight]; omega)
          refine ⟨out, ?_⟩
          simp only [stepF]
          rw [dif_pos h, if_neg hpar]
          exact hout
      · exact ⟨acc, by simp [stepF, h]⟩
    | segs xs =>
      cases xs with
      | nil => exact ⟨[], by simp [stepF]⟩
      | cons seg rest =>
        simp only [callWeight, segsWeight] at hc
        by_cases hemp : (trimChars seg).isEmpty
        · obtain ⟨out, hout⟩ := ih (Call.segs rest) (by simp [callWeight]; omega)
          refine ⟨out, ?_⟩
          simp only [stepF]
          rw [if_pos hemp]
          exact hout
        · have hlen : (stripMarker (trimChars seg)).2.length ≤ seg.length :=
            Nat.le_trans (stripMarker_length_le _) (trimChars_length_le _)
          obtain ⟨subItems, hsub⟩ :=
            ih (Call.span (stripMarker (trimChars seg)).2 0 [("", false)])
              (by simp [callWeight]; omega)
          obtain ⟨restItems, hrest⟩ := ih (Call.segs rest) (by simp [callWeight]; omega)
          refine ⟨subItems.map (fun p => (p.1, (stripMarker (trimChars seg)).1 || p.2))
            ++ restItems, ?_⟩
          simp only [stepF]
          rw [if_neg hemp, hsub, hrest]

theorem expandPairs_ok (pattern : String) :
    ∃ pairs, expandPairs pattern = some (Except.ok pairs) := by
  apply stepF_ok
  simp [callWeight, egpFuel]

theorem expand_group_pattern_ok (pattern : String) :
    ∃ out, expand_group_pattern pattern = some (Except.ok out) := by
  obtain ⟨pairs, hp⟩ := expandPairs_ok pattern
  refine ⟨(includesOf pairs).filter (fun s => !(decide (s ∈ excludesOf pairs))), ?_⟩
  simp [expand_group_pattern, hp]


theorem stepF_ne_error :
    ∀ (fuel : Nat) (c : Call) (e : String), stepF fuel c ≠ some (Except.error e) := by
  intro fuel
  induction fuel with
  | zero => intro c e; simp [stepF]
  | succ n ih =>
    intro c e
    cases c with
    | span chars i acc =>
      by_cases h : i < chars.length
      · by_cases hpar : chars.get ⟨i, h⟩ = '('
        · have hle := parseGroupSegs_idx_le_len chars (i + 1) (by omega)
          simp only [stepF]
          rw [dif_pos h, if_pos hpar,
            if_neg (by omega : ¬ chars.length < (parseGroupSegs chars (i + 1)).2)]
          cases hs : stepF n (Call.segs (parseGroupSegs chars (i + 1)).1) with
          | none => simp
          | some r =>
            cases r with
            | error e2 => exact absurd hs (ih _ e2)
            | ok items => simpa using ih _ e
        · simp only [stepF]
          rw [dif_pos h, if_neg hpar]
          exact ih _ e
      · simp [stepF, h]
    | segs xs =>
      cases xs with
      | nil => simp [stepF]
      | cons seg rest =>
        by_cases hemp : (trimChars seg).isEmpty
        · simp only [stepF]
          rw [if_pos hemp]
          exact ih _ e
        · simp only [stepF]
          rw [if_neg hemp]
          cases hs : stepF n (Call.span (stripMarker (trimChars seg)).2 0 [("", false)]) with
          | none => simp
          | some r =>
            cases r with
            | error e2 => exact absurd hs (ih _ e2)
            | ok subItems =>
              cases hr : stepF n (Call.segs rest) with
              | none => simp
              | some r2 =>
                cases r2 with
                | error e3 => exact absurd hr (ih _ e3)
                | ok restItems => simp

theorem parse_group_ne_error (fuel : Nat) (chars : List Char) (i : Nat)
    (h : i ≤ chars.length) (e : String) :
    parse_group fuel chars i ≠ some (Except.error e) := by
  have hle := parseGroupSegs_idx_le_len chars i h
  simp only [parse_group]
  rw [if_neg (by omega)]
  cases hs : stepF fuel (Call.segs (parseGroupSegs chars i).1) with
  | none => simp
  | some r =>
    cases r with
    | error e2 => exact absurd hs (stepF_ne_error _ _ e2)
    | ok out => simp

theorem dropWhile_ws_append (ws1 x : List Char)
    (h : ∀ c ∈ ws1, rustIsWhitespace c = true) :
    List.dropWhile rustIsWhitespace (ws1 ++ x) = List.dropWhile rustIsWhitespace x := by
  induction ws1 with
  | nil => simp
  | cons a t ih =>
    have ha : rustIsWhitespace a = true := h a (by simp)
    simp only [List.cons_append, List.dropWhile_cons, ha, if_true]
    exact ih (fun c hc => h c (by simp [hc]))

theorem trimChars_append_ws (x ws2 : List Char)
    (h : ∀ c ∈ ws2, rustIsWhitespace c = true) :
    trimChars (x ++ ws2) = trimChars x := by
  by_cases hx : List.dropWhile rustIsWhitespace x = []
  · have hall : ∀ c ∈ x, rustIsWhitespace c = true := List.dropWhile_eq_nil_iff.1 hx
    have hall2 : List.dropWhile rustIsWhitespace (x ++ ws2) = [] := by
      rw [List.dropWhile_eq_nil_iff]
      intro c hc
      rcases List.mem_append.1 hc with hc1 | hc2
      · exact hall c hc1
      · exact h c hc2
    simp [trimChars, hx, hall2]
  · have hne : (List.dropWhile rustIsWhitespace x).isEmpty = false := by
      cases hdx : List.dropWhile rustIsWhitespace x with
      | nil => exact absurd hdx hx
      | cons a b => simp
    have hsplit : List.dropWhile rustIsWhitespace (x ++ ws2) =
        List.dropWhile rustIsWhitespace x ++ ws2 := by
      rw [List.dropWhile_append, hne]
      simp
    have hrev : ∀ c ∈ ws2.reverse, rustIsWhitespace c = true := by
      intro c hc
      exact h c (List.mem_reverse.1 hc)
    simp only [trimChars, hsplit, List.reverse_append]
    rw [dropWhile_ws_append ws2.reverse _ hrev]

theorem trimChars_ws_append (ws1 y : List Char)
    (h : ∀ c ∈ ws1, rustIsWhitespace c = true) :
    trimChars (ws1 ++ y) = trimChars y := by
  simp only [trimChars, dropWhile_ws_append ws1 y h]

theorem trimChars_pad (ws1 s ws2 : List Char)
    (h1 : ∀ c ∈ ws1, rustIsWhitespace c = true)
    (h2 : ∀ c ∈ ws2, rustIsWhitespace c = true) :
    trimChars (ws1 ++ s ++ ws2) = trimChars s := by
  rw [List.append_assoc, trimChars_ws_append ws1 (s ++ ws2) h1,
    trimChars_append_ws s ws2 h2]

theorem mem_excludesOf_iff (pairs : List (String × Bool)) (s : String) :
    s ∈ excludesOf pairs ↔ (s, true) ∈ pairs := by
  simp only [excludesOf, List.mem_map, List.mem_filter]
  constructor
  · rintro ⟨⟨a, b⟩, ⟨hmem, hb⟩, rfl⟩
    simp only at hb
    cases b with
    | false => exact absurd hb (by simp)
    | true => exact hmem
  · intro hmem
    exact ⟨(s, true), ⟨hmem, rfl⟩, rfl⟩


/-- C1: the claim says `expand("a(b,c")` fails with `UnmatchedParenthesis`;
the code instead returns `Ok(["ab"])` (the guard `i > chars.len()` of the
bail in `parse_group` is never true, and the final segment `c` is dropped),
so the claim describes intended, not actual, behaviour.  This theorem
evaluates the code at the failing input. -/
theorem C1_unmatched_paren_input_returns_ok :
    expand_group_pattern "a(b,c" = some (Except.ok ["ab"]) := rfl

/-- C2: the sequence returned by `expand_group_pattern` is exactly the
includes (pairs whose exclusion flag is false, in production order) with
every string that appears in any excluded pair `(s, true)` removed. -/
theorem C2_output_is_includes_minus_excluded (pattern : String)
    (pairs : List (String × Bool))
    (hp : expandPairs pattern = some (Except.ok pairs)) :
    expand_group_pattern pattern =
      some (Except.ok ((includesOf pairs).filter
        (fun s => !(decide ((s, true) ∈ pairs))))) := by
  simp only [expand_group_pattern, hp]
  have hcong : ∀ s ∈ includesOf pairs,
      (!(decide (s ∈ excludesOf pairs))) = (!(decide ((s, true) ∈ pairs))) := by
    intro s _
    simp [mem_excludesOf_iff]
  rw [List.filter_congr hcong]

theorem C2_witness :
    expandPairs "(a,-a)b" = some (Except.ok [("ab", false), ("ab", true)]) ∧
    expand_group_pattern "(a,-a)b" =
      some (Except.ok ((includesOf [("ab", false), ("ab", true)]).filter
        (fun s => !(decide ((s, true) ∈ ([("ab", false), ("ab", true)] : List (String × Bool))))))) :=
  ⟨rfl, C2_output_is_includes_minus_excluded "(a,-a)b" [("ab", false), ("ab", true)] rfl⟩

/-- C3: on `(` the accumulator is replaced by the cartesian product of the
accumulator with the group's alternatives, `(p ++ q, pe || qe)` pairwise
(`cartProd`), and the scan resumes past the matching `)`; consequently
`expand("a(b,c)d") = ["abd", "acd"]` in that order. -/
theorem C3_paren_cartesian_product :
    (∀ (fuel : Nat) (chars : List Char) (i : Nat) (acc : List (String × Bool))
      (h : i < chars.length), chars.get ⟨i, h⟩ = '(' →
      ∀ items, stepF fuel (Call.segs (parseGroupSegs chars (i + 1)).1) =
        some (Except.ok items) →
      stepF (fuel + 1) (Call.span chars i acc) =
        stepF fuel (Call.span chars (parseGroupSegs chars (i + 1)).2 (cartProd acc items))) ∧
    expand_group_pattern "a(b,c)d" = some (Except.ok ["abd", "acd"]) := by
  constructor
  · intro fuel chars i acc h hpar items hitems
    have hle := parseGroupSegs_idx_le_len chars (i + 1) (by omega)
    simp only [stepF]
    rw [dif_pos h, if_pos hpar,
      if_neg (by omega : ¬ chars.length < (parseGroupSegs chars (i + 1)).2), hitems]
  · rfl

theorem C3_witness :
    stepF 9 (Call.segs (parseGroupSegs ['(', 'x', ')'] 1).1) =
      some (Except.ok [("x", false)]) ∧
    stepF 10 (Call.span ['(', 'x', ')'] 0 [("a", false)]) =
      stepF 9 (Call.span ['(', 'x', ')'] (parseGroupSegs ['(', 'x', ')'] 1).2
        (cartProd [("a", false)] [("x", false)])) :=
  ⟨rfl, C3_paren_cartesian_product.1 9 ['(', 'x', ')'] 0 [("a", false)]
    (by decide) rfl [("x", false)] rfl⟩

/-- C4: a segment carrying a leading `-`/`^` marker forces the exclusion
flag of every pair produced from its body (however deeply nested), the
segment flag being OR-combined with the deeper flags. -/
theorem C4_exclusion_monotonic (fuel : Nat) (seg : List Char)
    (subItems : List (String × Bool))
    (hemp : (trimChars seg).isEmpty = false)
    (hsub : stepF fuel (Call.span (stripMarker (trimChars seg)).2 0 [("", false)]) =
      some (Except.ok subItems)) :
    stepF (fuel + 1) (Call.segs [seg]) =
      some (Except.ok (subItems.map
        (fun p => (p.1, (stripMarker (trimChars seg)).1 || p.2)))) ∧
    ((stripMarker (trimChars seg)).1 = true →
      ∀ p ∈ subItems.map (fun p => (p.1, (stripMarker (trimChars seg)).1 || p.2)),
        p.2 = true) := by
  obtain ⟨k, rfl⟩ : ∃ k, fuel = k + 1 := by
    cases fuel with
    | zero => simp [stepF] at hsub
    | succ k => exact ⟨k, rfl⟩
  constructor
  · simp only [stepF] at hsub ⊢
    rw [if_neg (by simp [hemp]), hsub]
    simp
  · intro hexc p hp
    simp only [List.mem_map] at hp
    obtain ⟨q, hq, rfl⟩ := hp
    simp [hexc]

theorem C4_witness :
    (trimChars ['-', 'a']).isEmpty = false ∧
    stepF 6 (Call.segs [['-', 'a']]) = some (Except.ok [("a", true)]) :=
  ⟨rfl, (C4_exclusion_monotonic 5 ['-', 'a'] [("a", false)] rfl rfl).1⟩

/-- C5: the unmatched-parenthesis error branch is unreachable: the scan
index never exceeds the input length, `parse_group` never returns the
error, `expand_group_pattern` always returns `Ok`, and the unterminated
group of `"a(b,c"` silently drops its final segment, giving `Ok(["ab"])`. -/
theorem C5_error_branch_unreachable :
    (∀ (chars : List Char) (i : Nat), i ≤ chars.length →
      (parseGroupSegs chars i).2 ≤ chars.length) ∧
    (∀ (fuel : Nat) (chars : List Char) (i : Nat) (e : String), i ≤ chars.length →
      parse_group fuel chars i ≠ some (Except.error e)) ∧
    (∀ pattern : String, ∃ out, expand_group_pattern pattern = some (Except.ok out)) ∧
    expand_group_pattern "a(b,c" = some (Except.ok ["ab"]) := by
  refine ⟨parseGroupSegs_idx_le_len, ?_, expand_group_pattern_ok, rfl⟩
  intro fuel chars i e h
  exact parse_group_ne_error fuel chars i h e

theorem C5_witness :
    (parseGroupSegs ['x'] 0).2 ≤ ['x'].length ∧
    parse_group 3 ['x'] 0 ≠ some (Except.error unmatchedMsg) :=
  ⟨C5_error_branch_unreachable.1 ['x'] 0 (by decide),
    C5_error_branch_unreachable.2.1 3 ['x'] 0 unmatchedMsg (by decide)⟩

/-- C6: for every input, `expand_group_pattern` terminates with an `Ok`
result, and no string of that result is in the exclude set computed from
the same input's expansion pairs. -/
theorem C6_terminates_and_excludes_removed (pattern : String) :
    (∃ out, expand_group_pattern pattern = some (Except.ok out)) ∧
    (∀ (pairs : List (String × Bool)) (out : List String),
      expandPairs pattern = some (Except.ok pairs) →
      expand_group_pattern pattern = some (Except.ok out) →
      ∀ s ∈ out, s ∉ excludesOf pairs) := by
  refine ⟨expand_group_pattern_ok pattern, ?_⟩
  intro pairs out hp ho s hs
  rw [expand_group_pattern, hp] at ho
  simp only [Option.some.injEq, Except.ok.injEq] at ho
  rw [← ho] at hs
  have hmem := List.mem_filter.1 hs
  simpa using hmem.2

theorem C6_witness :
    "ac" ∉ excludesOf [("ac", false), ("bc", true)] :=
  (C6_terminates_and_excludes_removed "(a,-b)c").2
    [("ac", false), ("bc", true)] ["ac"] rfl rfl "ac" (by simp)

/-- C7: whitespace around a segment is trimmed before the exclusion-marker
check, so whitespace adjacent to commas and parentheses is ignored:
padding a segment with whitespace does not change its expansion, and
`expand("(a, b)") = expand("(a,b)") = ["a", "b"]`. -/
theorem C7_whitespace_insensitive :
    (∀ (fuel : Nat) (s ws1 ws2 : List Char),
      (∀ c ∈ ws1, rustIsWhitespace c = true) →
      (∀ c ∈ ws2, rustIsWhitespace c = true) →
      stepF fuel (Call.segs [ws1 ++ s ++ ws2]) = stepF fuel (Call.segs [s])) ∧
    expand_group_pattern "(a, b)" = expand_group_pattern "(a,b)" ∧
    expand_group_pattern "(a,b)" = some (Except.ok ["a", "b"]) := by
  refine ⟨?_, rfl, rfl⟩
  intro fuel s ws1 ws2 h1 h2
  cases fuel with
  | zero => rfl
  | succ n =>
    simp only [stepF, trimChars_pad ws1 s ws2 h1 h2]

theorem C7_witness :
    stepF 4 (Call.segs [[' '] ++ ['a'] ++ []]) = stepF 4 (Call.segs [['a']]) :=
  C7_whitespace_insensitive.1 4 ['a'] [' '] [] (by decide) (by decide)

/-- C8: a `)` at depth 0 outside any group is an ordinary literal
character, appended to every accumulated string — never a delimiter and
never an error; `expand("a)b") = ["a)b"]`. -/
theorem C8_stray_close_paren_literal :
    (∀ (fuel : Nat) (chars : List Char) (i : Nat) (acc : List (String × Bool))
      (h : i < chars.length), chars.get ⟨i, h⟩ = ')' →
      stepF (fuel + 1) (Call.span chars i acc) =
        stepF fuel (Call.span chars (i + 1)
          (acc.map (fun p => (p.1.push ')', p.2))))) ∧
    expand_group_pattern "a)b" = some (Except.ok ["a)b"]) := by
  constructor
  · intro fuel chars i acc h hc
    simp only [stepF]
    rw [dif_pos h, if_neg (by rw [hc]; decide), hc]
  · rfl

theorem C8_witness :
    stepF 4 (Call.span ['a', ')'] 1 [("a", false)]) =
      stepF 3 (Call.span ['a', ')'] 2
        ([("a", false)].map (fun p => (p.1.push ')', p.2)))) :=
  C8_stray_close_paren_literal.1 3 ['a', ')'] 1 [("a", false)] (by decide) rfl

/-- C9: a group whose segments are all empty or whitespace-only yields no
alternatives, and the cartesian product with an empty alternative list
empties the accumulator, annihilating the enclosing branch:
`expand("a()")` and `expand("a( , )b")` are both empty. -/
theorem C9_empty_group_annihilates :
    (∀ acc : List (String × Bool), cartProd acc [] = []) ∧
    (∀ (fuel : Nat) (segs : List (List Char)),
      (∀ seg ∈ segs, (trimChars seg).isEmpty = true) → segs.length < fuel →
      stepF fuel (Call.segs segs) = some (Except.ok [])) ∧
    expand_group_pattern "a()" = some (Except.ok []) ∧
    expand_group_pattern "a( , )b" = some (Except.ok []) := by
  refine ⟨?_, ?_, rfl, rfl⟩
  · intro acc
    simp [cartProd]
  · intro fuel segs
    induction segs generalizing fuel with
    | nil =>
      intro _ hlen
      obtain ⟨k, rfl⟩ : ∃ k, fuel = k + 1 := ⟨fuel - 1, by omega⟩
      simp [stepF]
    | cons seg rest ih =>
      intro hws hlen
      obtain ⟨k, rfl⟩ : ∃ k, fuel = k + 1 := ⟨fuel - 1, by omega⟩
      simp only [stepF]
      rw [if_pos (hws seg (by simp))]
      refine ih k (fun s hs => hws s (List.mem_cons_of_mem _ hs)) ?_
      simp only [List.length_cons] at hlen
      omega

theorem C9_witness :
    cartProd [("a", false)] [] = [] ∧
    stepF 3 (Call.segs [[' ']]) = some (Except.ok []) :=
  ⟨C9_empty_group_annihilates.1 [("a", false)],
    C9_empty_group_annihilates.2.1 3 [[' ']] (by decide) (by decide)⟩

/-- C10: the include list is not deduplicated: a repeated, never-excluded
alternative appears once per occurrence; only the exclude collection acts
as a membership set. -/
theorem C10_includes_not_deduplicated :
    expand_group_pattern "(a,a)" = some (Except.ok ["a", "a"]) ∧
    expand_group_pattern "(a,b,a)" = some (Except.ok ["a", "b", "a"]) :=
  ⟨rfl, rfl⟩

end Fpr
